import Mathlib

/-!
Verification of the prices ingestion/export service (`main.go` together with
`db/10-init.sql`).  The Go source is shallowly embedded: every pure helper
becomes a Lean function, the PostgreSQL table becomes an explicit list-shaped
store threaded through the transaction model, monetary values are exact
rationals — with the program's `float64` data path (`strconv.ParseFloat`,
float multiplication/division, `math.Round`, the `Scan` of the `NUMERIC` sum
into a `float64`) modelled bit-faithfully by `rnd64`, an exact-rational
implementation of IEEE-754 binary64 round-to-nearest-ties-to-even — and
fallible database operations are driven by an explicit failure oracle.
-/

set_option allowUnsafeReducibility true in
attribute [semireducible] Rat.mul Rat.add Rat.sub Rat.div Rat.inv Rat.blt

namespace PricesService

/-! ## Character and string helpers (models of the Go standard library calls) -/

/-- Whitespace test of Go `unicode.IsSpace`, as used by `strings.TrimSpace`:
`'\t'..'\r'`, space, NEL, NBSP, OGHAM SPACE, the U+2000..U+200A spaces, the
line/paragraph separators, NARROW NBSP, MMSP and IDEOGRAPHIC SPACE. -/
def isSpaceChar (c : Char) : Bool :=
  let n := c.toNat
  (9 ≤ n && n ≤ 13) || n == 32 || n == 133 || n == 160 || n == 5760 ||
  (8192 ≤ n && n ≤ 8202) || n == 8232 || n == 8233 || n == 8239 ||
  n == 8287 || n == 12288

/-- Model of Go `strings.TrimSpace`: drop leading and trailing whitespace. -/
def goTrimSpace (s : String) : String :=
  ⟨((s.data.dropWhile isSpaceChar).reverse.dropWhile isSpaceChar).reverse⟩

/-- Replace a comma by a period, other characters unchanged. -/
def commaToDot (c : Char) : Char := if c = ',' then '.' else c

/-- Model of `strings.ReplaceAll(s, ",", ".")` (single-character pattern). -/
def goReplaceCommaDot (s : String) : String := ⟨s.data.map commaToDot⟩

/-- ASCII decimal digit test (byte comparison, as Go's parsers do). -/
def isDigitChar (c : Char) : Bool := 48 ≤ c.toNat && c.toNat ≤ 57

def allDigits (l : List Char) : Bool := l.all isDigitChar

/-- Numeric value of an ASCII digit character. -/
def digitVal (c : Char) : Nat := c.toNat - 48

/-- ASCII digit character of a value `0..9`. -/
def digitChar (n : Nat) : Char := Char.ofNat (48 + n)

/-- Decimal value of a digit string, most significant first. -/
def natOfDigits (l : List Char) : Nat := l.foldl (fun a c => a * 10 + digitVal c) 0

/-! ## Calendar dates (model of Go `time.Parse("2006-01-02", s)`) -/

structure Date where
  year : Nat
  month : Nat
  day : Nat
deriving DecidableEq, Repr

def isLeapYear (y : Nat) : Bool :=
  (y % 4 == 0 && y % 100 != 0) || (y % 400 == 0)

def daysInMonth (y m : Nat) : Nat :=
  if m = 2 then (if isLeapYear y then 29 else 28)
  else if m = 4 ∨ m = 6 ∨ m = 9 ∨ m = 11 then 30
  else 31

/-- Model of Go `time.Parse("2006-01-02", s)`: the layout's zero-padded
numeric fields demand exactly 4+2+2 digits, and Go validates month and
day-of-month ranges (including leap years).  Only the calendar date is kept. -/
def parseGoDate (s : String) : Option Date :=
  match s.data with
  | [y1, y2, y3, y4, h1, m1, m2, h2, d1, d2] =>
    if h1 = '-' ∧ h2 = '-' ∧ allDigits [y1, y2, y3, y4, m1, m2, d1, d2] = true then
      let y := natOfDigits [y1, y2, y3, y4]
      let m := natOfDigits [m1, m2]
      let d := natOfDigits [d1, d2]
      if 1 ≤ m ∧ m ≤ 12 ∧ 1 ≤ d ∧ d ≤ daysInMonth y m then some ⟨y, m, d⟩ else none
    else none
  | _ => none

/-- The canonical `YYYY-MM-DD` rendering of a date (model of Go
`t.Format("2006-01-02")` for in-range dates). -/
def formatGoDate (dt : Date) : String :=
  ⟨[digitChar (dt.year / 1000 % 10), digitChar (dt.year / 100 % 10),
    digitChar (dt.year / 10 % 10), digitChar (dt.year % 10), '-',
    digitChar (dt.month / 10 % 10), digitChar (dt.month % 10), '-',
    digitChar (dt.day / 10 % 10), digitChar (dt.day % 10)]⟩

/-- Strict lexicographic order on dates (the order PostgreSQL uses for the
`DATE` column). -/
def dateLt (a b : Date) : Prop :=
  a.year < b.year ∨ (a.year = b.year ∧
    (a.month < b.month ∨ (a.month = b.month ∧ a.day < b.day)))

instance : DecidablePred fun p : Date × Date => dateLt p.1 p.2 := by
  intro p; unfold dateLt; infer_instance

instance (a b : Date) : Decidable (dateLt a b) := by
  unfold dateLt; infer_instance

/-! ## Exact decimal arithmetic -/

/-- Model of `strconv.ParseFloat` restricted to plain decimal literals:
optional sign, decimal digits with at most one decimal point, at least one
digit.  The numeric value is kept exactly as a rational (exponent, hex and
inf/NaN forms are outside the fragment this service's data uses). -/
def parseDecQ (s : String) : Option ℚ :=
  let (neg, body) :=
    match s.data with
    | '-' :: t => (true, t)
    | '+' :: t => (false, t)
    | t => (false, t)
  let mag : Option ℚ :=
    match body.splitOn '.' with
    | [ip] =>
      if ip ≠ [] ∧ allDigits ip = true then
        some (mkRat (natOfDigits ip : ℤ) 1)
      else none
    | [ip, fp] =>
      if (ip ≠ [] ∨ fp ≠ []) ∧ allDigits ip = true ∧ allDigits fp = true then
        some (mkRat ((natOfDigits ip * 10 ^ fp.length + natOfDigits fp : ℕ) : ℤ)
          (10 ^ fp.length))
      else none
    | _ => none
  match mag with
  | none => none
  | some q => some (if neg then -q else q)

/-- Floor of a nonnegative rational, computed on the normalized fraction. -/
def ratFloorNN (q : ℚ) : ℤ := q.num / (q.den : ℤ)

/-- Model of Go `math.Round`: round half away from zero. -/
def goRound (q : ℚ) : ℤ :=
  if 0 ≤ q then ratFloorNN (q + 1 / 2) else -ratFloorNN (-q + 1 / 2)

theorem ratFloorNN_eq_floor (q : ℚ) : ratFloorNN q = ⌊q⌋ := by
  rw [ratFloorNN, Rat.floor_def]

/-- `goRound` agrees with the usual half-away-from-zero rounding. -/
theorem goRound_eq (q : ℚ) (h : 0 ≤ q) : goRound q = ⌊q + 1 / 2⌋ := by
  rw [goRound, if_pos h, ratFloorNN_eq_floor]

/-- Rounding a whole number is the identity. -/
theorem goRound_intCast (n : ℤ) : goRound (n : ℚ) = n := by
  unfold goRound
  by_cases h : (0 : ℚ) ≤ (n : ℚ)
  · rw [if_pos h, ratFloorNN_eq_floor, Int.floor_int_add]
    norm_num
  · rw [if_neg h, ratFloorNN_eq_floor,
      show (-(n : ℚ) + 1 / 2 : ℚ) = ((-n : ℤ) : ℚ) + (1 / 2 : ℚ) by push_cast; ring,
      Int.floor_int_add]
    norm_num

/-! ## Exact model of IEEE-754 binary64 (`float64`) rounding -/

/-- `2 ^ e ≤ a / b`, decided in integer arithmetic (`a, b > 0`). -/
def pow2LE (e : ℤ) (a b : Nat) : Bool :=
  if 0 ≤ e then 2 ^ e.toNat * b ≤ a else b ≤ a * 2 ^ (-e).toNat

/-- `⌊log₂ n⌋` by structural recursion on a fuel bound (`fuel ≥ n`
suffices). -/
def log2Aux : Nat → Nat → Nat
  | 0, _ => 0
  | fuel + 1, n => if 2 ≤ n then log2Aux fuel (n / 2) + 1 else 0

/-- `⌊log₂ n⌋` (0 for `n ≤ 1`). -/
def natLog2 (n : Nat) : Nat := log2Aux n n

/-- `⌊log₂ (a / b)⌋` for `a, b > 0`.  With `la = ⌊log₂ a⌋` and
`lb = ⌊log₂ b⌋` the quotient lies in `(2 ^ (la - lb - 1), 2 ^ (la - lb + 1))`,
so the floor is `la - lb` or `la - lb - 1`; it is picked by direct
comparison. -/
def floorLog2Q (a b : Nat) : ℤ :=
  let g : ℤ := (natLog2 a : ℤ) - (natLog2 b : ℤ)
  if pow2LE (g + 1) a b then g + 1 else if pow2LE g a b then g else g - 1

/-- Round a nonnegative rational to the nearest integer, ties to even; the
fractional remainder is compared against one half in integer arithmetic. -/
def roundTiesEvenNN (q : ℚ) : ℤ :=
  let f := q.num / (q.den : ℤ)
  let rem := q.num - f * (q.den : ℤ)
  if 2 * rem < (q.den : ℤ) then f
  else if (q.den : ℤ) < 2 * rem then f + 1
  else if f % 2 = 0 then f else f + 1

/-- Scale by a (possibly negative) power of two, in integer arithmetic. -/
def mulPow2 (q : ℚ) (k : ℤ) : ℚ :=
  if 0 ≤ k then mkRat (q.num * 2 ^ k.toNat) q.den
  else mkRat q.num (q.den * 2 ^ (-k).toNat)

/-- The exact value of the IEEE-754 binary64 nearest to a positive rational:
the significand `q / 2 ^ (e - 52)` (in `[2^52, 2^53)`) is rounded to an
integer, ties to even, and scaled back.  Normal range: sub-normal underflow
(below `2^-1022`, far under any price) is not modelled, and the `2^1024`
overflow threshold is checked by the caller. -/
def rnd64pos (q : ℚ) : ℚ :=
  let e : ℤ := floorLog2Q q.num.toNat q.den
  let n : ℤ := roundTiesEvenNN (mulPow2 q (52 - e))
  mulPow2 (mkRat n 1) (e - 52)

/-- The exact value of the binary64 nearest to `q` (round to nearest, ties to
even). -/
def rnd64 (q : ℚ) : ℚ :=
  if q = 0 then 0 else if 0 < q then rnd64pos q else -rnd64pos (-q)

/-- A binary64 product, correctly rounded. -/
def fmul (x y : ℚ) : ℚ := rnd64 (x * y)

/-- A binary64 quotient, correctly rounded. -/
def fdiv (x y : ℚ) : ℚ := rnd64 (x / y)

/-- Model of Go `math.Round` on a binary64 value: round half away from zero.
The result of `math.Round` is always exactly representable (a fractional
argument is below `2^52`), so no re-rounding occurs. -/
def goRoundF (x : ℚ) : ℚ := mkRat (goRound x) 1

/-- Model of `strconv.ParseFloat(s, 64)` on plain decimal literals: the
decimal value is read exactly and correctly rounded to binary64; a value
whose rounding reaches `2 ^ 1024` (i.e. `pow2LE 1024 |num| den`) overflows
and is an error in Go. -/
def parseFloat64 (s : String) : Option ℚ :=
  match parseDecQ s with
  | none => none
  | some v =>
    let f := rnd64 v
    if pow2LE 1024 f.num.natAbs f.den then none else some f

/-- Model of `parsePrice` (main.go), faithful to the `float64` data path:
trim, replace commas with periods, `strconv.ParseFloat` into a binary64,
reject non-positive values, then normalize to two decimal places as
`math.Round(f*100)/100` evaluated in binary64 arithmetic, rejecting a
normalized value that is not positive. -/
def parsePrice (s : String) : Option ℚ :=
  let t := goReplaceCommaDot (goTrimSpace s)
  match parseFloat64 t with
  | none => none
  | some f =>
    if f ≤ 0 then none
    else
      let f2 : ℚ := fdiv (goRoundF (fmul f 100)) 100
      if f2 ≤ 0 then none else some f2

/-- Two-digit zero padding. -/
def pad2 (n : Nat) : String := if n < 10 then "0" ++ toString n else toString n

/-- Model of `fmt.Sprintf("%.2f", v)` on the nonnegative values this service
produces — binary64 prices within a hair of a whole number of hundredths, so
the two-decimal rounding never meets a tie. -/
def formatMoney (q : ℚ) : String :=
  let n := (goRound (q * 100)).toNat
  toString (n / 100) ++ "." ++ pad2 (n % 100)

/-! ## CSV rows and the validation scan of `ingestCSV` -/

/-- One raw CSV record: the list of its fields
(`id,name,category,price,create_date`). -/
abbrev RawRow := List String

/-- A validated input row (struct `PriceRow` in main.go; the price field is
the exact value of the normalized two-decimal float). -/
structure PriceRow where
  inputId : String
  createdAt : Date
  name : String
  category : String
  price : ℚ
deriving DecidableEq, Repr

/-- The in-upload dedup key of `ingestCSV`:
`fmt.Sprintf("%s|%s|%s|%.2f", createdAtStr, name, category, price)`. -/
def rowKey (createdAtStr name category : String) (price : ℚ) : String :=
  createdAtStr ++ "|" ++ name ++ "|" ++ category ++ "|" ++ formatMoney price

/-- The validation pipeline applied to one record inside the read loop of
`ingestCSV`: field count, trimming, required-field emptiness, date parse,
price parse.  On success it yields the row's dedup key together with the
validated row. -/
def rowNorm (rec : RawRow) : Option (String × PriceRow) :=
  match rec with
  | [f0, f1, f2, f3, f4] =>
    let inputID := goTrimSpace f0
    let name := goTrimSpace f1
    let category := goTrimSpace f2
    let priceStr := goTrimSpace f3
    let createdAtStr := goTrimSpace f4
    if inputID = "" ∨ createdAtStr = "" ∨ name = "" ∨ category = "" ∨ priceStr = "" then
      none
    else
      match parseGoDate createdAtStr with
      | none => none
      | some createdAt =>
        match parsePrice priceStr with
        | none => none
        | some price =>
          some (rowKey createdAtStr name category price,
                ⟨inputID, createdAt, name, category, price⟩)
  | _ => none

/-- The accumulator of the CSV read loop in `ingestCSV`:
`totalCount`, `rejectedAsDup`, the `seenNoID` key set (kept in insertion
order) and the retained `validRows`. -/
structure ScanState where
  totalCount : Nat
  rejectedAsDup : Nat
  seenNoID : List String
  validRows : List PriceRow
deriving DecidableEq, Repr

/-- One iteration of the read loop of `ingestCSV`: count the record, reject a
malformed record, reject an in-upload duplicate key, or retain the row and
remember its key. -/
def scanStep (st : ScanState) (rec : RawRow) : ScanState :=
  let st := { st with totalCount := st.totalCount + 1 }
  match rowNorm rec with
  | none => { st with rejectedAsDup := st.rejectedAsDup + 1 }
  | some (key, r) =>
    if key ∈ st.seenNoID then
      { st with rejectedAsDup := st.rejectedAsDup + 1 }
    else
      { st with seenNoID := st.seenNoID ++ [key],
                validRows := st.validRows ++ [r] }

def initScan : ScanState := ⟨0, 0, [], []⟩

/-- The whole validation scan of `ingestCSV` over the records that follow the
header line. -/
def scanRows (rows : List RawRow) : ScanState :=
  rows.foldl scanStep initScan

/-! ## The persisted store (table `prices` of `db/10-init.sql`) -/

/-- One persisted row.  `id BIGSERIAL` is a surrogate assigned by insertion
position; `price NUMERIC(12,2)` is kept as its exact rational value. -/
structure DBEntry where
  productId : String
  createdAt : Date
  name : String
  category : String
  price : ℚ
deriving DecidableEq, Repr

abbrev Store := List DBEntry

/-- The `NUMERIC(12,2)` image of a transmitted value: PostgreSQL rounds the
cast parameter to two decimal digits, half away from zero, in exact decimal
arithmetic. -/
def numeric2 (q : ℚ) : ℚ := mkRat (goRound (q * 100)) 100

/-- Whether a row's `(created_at, name, category, price)` key collides with
the `prices_uniq UNIQUE` constraint: the float parameter is cast to
`NUMERIC(12,2)` before the comparison with the stored `NUMERIC` values. -/
def keyConflict (st : Store) (r : PriceRow) : Bool :=
  st.any fun e =>
    decide (e.createdAt = r.createdAt ∧ e.name = r.name ∧
            e.category = r.category ∧ e.price = numeric2 r.price)

/-- Model of `insertPriceTx`: `INSERT ... ON CONFLICT DO NOTHING`; the price
is persisted as its `NUMERIC(12,2)` image; returns the new store and whether
one row was affected.  (A value outside `NUMERIC(12,2)` range would error in
PostgreSQL; prices of that magnitude are outside this model.) -/
def insertPriceTx (st : Store) (r : PriceRow) : Store × Bool :=
  if keyConflict st r then (st, false)
  else (st ++ [⟨r.inputId, r.createdAt, r.name, r.category, numeric2 r.price⟩], true)

/-- Apply the conditional inserts of a batch in order, ignoring the
affected-row reports. -/
def applyRows (st : Store) (rs : List PriceRow) : Store :=
  rs.foldl (fun s r => (insertPriceTx s r).1) st

/-- `COUNT(DISTINCT category)` over the whole table. -/
def distinctCategories (st : Store) : Nat :=
  (st.map DBEntry.category).dedup.length

/-- `COALESCE(SUM(price), 0)` over the whole table. -/
def totalPriceSum (st : Store) : ℚ :=
  (st.map DBEntry.price).sum

/-- Model of `statsTx`: the aggregate query over the entire `prices` table.
`COUNT(DISTINCT category)` scans into an `int` exactly; `SUM(price)` is
computed exactly in `NUMERIC`, scanned into a `float64` (`rnd64`), and
re-rounded to two decimals by the Go code in binary64 arithmetic. -/
def statsTx (st : Store) : Nat × ℚ :=
  (distinctCategories st,
   fdiv (goRoundF (fmul (rnd64 (totalPriceSum st)) 100)) 100)

/-! ## The upload transaction (`ingestCSV`, persistence half) -/

/-- The JSON body of a successful POST response. -/
structure PostResponse where
  totalCount : Nat
  duplicatesCount : Nat
  totalItems : Nat
  totalCategories : Nat
  totalPrice : ℚ
deriving DecidableEq, Repr

inductive DBErr where
  | beginFailed
  | insertFailed
  | statsFailed
  | commitFailed
deriving DecidableEq, Repr

/-- Failure oracle for the database operations of one upload: whether
`BeginTx` fails, whether the `i`-th insert statement fails, whether the
aggregate query fails, whether `Commit` fails. -/
structure DBOracle where
  beginFails : Bool
  insertFails : Nat → Bool
  statsFails : Bool
  commitFails : Bool

def noFailOracle : DBOracle := ⟨false, fun _ => false, false, false⟩

/-- The insert loop of `ingestCSV` run inside the transaction: on the `i`-th
statement error the whole loop reports failure, otherwise an unaffected
insert increments the duplicate counter and an affected one the item
counter. -/
def persistLoop (o : DBOracle) :
    Nat → Store → Nat → Nat → List PriceRow → Option (Store × Nat × Nat)
  | _, pending, items, dups, [] => some (pending, items, dups)
  | i, pending, items, dups, r :: rs =>
    if o.insertFails i then none
    else
      let res := insertPriceTx pending r
      if res.2 then persistLoop o (i + 1) res.1 (items + 1) dups rs
      else persistLoop o (i + 1) res.1 items (dups + 1) rs

/-- Model of `ingestCSV` (main.go): the validation scan followed by one
transaction holding every conditional insert plus the aggregate query.  The
returned store is the caller-visible persisted state: it moves to the pending
state only when `Commit` succeeds; every error path rolls the transaction
back, leaving the store unchanged, and surfaces a single error. -/
def ingestRows (o : DBOracle) (σ : Store) (rows : List RawRow) :
    Store × Except DBErr PostResponse :=
  let s := scanRows rows
  if o.beginFails then (σ, .error .beginFailed)
  else
    match persistLoop o 0 σ 0 s.rejectedAsDup s.validRows with
    | none => (σ, .error .insertFailed)
    | some (pending, items, dups) =>
      if o.statsFails then (σ, .error .statsFailed)
      else
        let stats := statsTx pending
        if o.commitFails then (σ, .error .commitFailed)
        else (pending, .ok ⟨s.totalCount, dups, items, stats.1, stats.2⟩)

/-! ## GET parameter validation (`handlePricesGet`) -/

instance {ε α : Type} [DecidableEq ε] [DecidableEq α] : DecidableEq (Except ε α)
  | .error e, .error f =>
    if h : e = f then .isTrue (by rw [h]) else .isFalse (by intro hh; cases hh; exact h rfl)
  | .error _, .ok _ => .isFalse (by intro hh; cases hh)
  | .ok _, .error _ => .isFalse (by intro hh; cases hh)
  | .ok a, .ok b =>
    if h : a = b then .isTrue (by rw [h]) else .isFalse (by intro hh; cases hh; exact h rfl)

/-- Model of `strconv.Atoi`: optional sign followed by at least one decimal
digit, nothing else (machine-word overflow aside). -/
def goAtoi (s : String) : Option ℤ :=
  let (neg, body) :=
    match s.data with
    | '-' :: t => (true, t)
    | '+' :: t => (false, t)
    | t => (false, t)
  if body ≠ [] ∧ allDigits body = true then
    some (if neg then -(natOfDigits body : ℤ) else (natOfDigits body : ℤ))
  else none

/-- The filter handed to `buildGetQuery` when validation passes: the four
optional bounds. -/
structure GetFilter where
  startDate : Option Date
  endDate : Option Date
  minPrice : Option ℤ
  maxPrice : Option ℤ
deriving DecidableEq, Repr

/-- One optional date query parameter of `handlePricesGet`: absent when the
trimmed value is empty, otherwise it must parse as `2006-01-02`. -/
def parseDateParam (s errMsg : String) : Except String (Option Date) :=
  if s = "" then .ok none
  else match parseGoDate s with
    | none => .error errMsg
    | some d => .ok (some d)

/-- One optional price-bound query parameter of `handlePricesGet`: absent
when the trimmed value is empty, otherwise `strconv.Atoi` must succeed and
the integer must be strictly positive. -/
def parsePriceParam (s errMsg : String) : Except String (Option ℤ) :=
  if s = "" then .ok none
  else match goAtoi s with
    | none => .error errMsg
    | some i => if i ≤ 0 then .error errMsg else .ok (some i)

/-- Model of the query-parameter validation of `handlePricesGet`, up to the
point where the store read `db.QueryContext` executes: trims the four raw
query values, parses the optional dates, requires `min`/`max` to be integers
greater than zero, and rejects `min > max` (there is no corresponding check
for the date bounds).  `Except.error` is the `http.Error` early return before
any read; `Except.ok` means the read executes with the returned filter. -/
def validateGet (startStr endStr minStr maxStr : String) : Except String GetFilter :=
  match parseDateParam (goTrimSpace startStr) "invalid start" with
  | .error e => .error e
  | .ok startD =>
    match parseDateParam (goTrimSpace endStr) "invalid end" with
    | .error e => .error e
    | .ok endD =>
      match parsePriceParam (goTrimSpace minStr) "invalid min" with
      | .error e => .error e
      | .ok minP =>
        match parsePriceParam (goTrimSpace maxStr) "invalid max" with
        | .error e => .error e
        | .ok maxP =>
          match minP, maxP with
          | some a, some b =>
            if b < a then .error "min > max" else .ok ⟨startD, endD, minP, maxP⟩
          | _, _ => .ok ⟨startD, endD, minP, maxP⟩

/-! ## Archive unwrapping (`openCSVFromZipBytes`, `openCSVFromTarBytes`) -/

/-- One archive entry: its name, whether it is a directory entry, and its
payload bytes (empty for directories). -/
structure ArchiveEntry where
  name : String
  isDir : Bool
  payload : List Nat
deriving DecidableEq, Repr

/-- ASCII lower-casing, the fragment of Unicode simple folding that
`strings.EqualFold` needs for the ASCII target name `data.csv`. -/
def asciiLower (c : Char) : Char :=
  if 'A' ≤ c ∧ c ≤ 'Z' then Char.ofNat (c.toNat + 32) else c

/-- Model of `strings.EqualFold` on the names this service compares. -/
def eqFold (a b : String) : Bool :=
  a.data.map asciiLower = b.data.map asciiLower

/-- Model of Go `path.Base`: empty path gives ".", trailing slashes are
stripped, then everything up to the last slash is dropped; an all-slash path
gives "/". -/
def pathBase (s : String) : String :=
  if s.data = [] then "."
  else
    let cs := (s.data.reverse.dropWhile (fun c => c = '/')).reverse
    let base := (cs.reverse.takeWhile (fun c => c ≠ '/')).reverse
    if base = [] then "/" else ⟨base⟩

/-- The entry-selection loop shared by both unwrappers: the first entry whose
`path.Base` name case-insensitively equals `data.csv` is selected immediately
and its payload returned; if none matches the payload-not-found error is
reported. -/
def findDataCSV : List ArchiveEntry → Except String (List Nat)
  | [] => .error "data.csv not found in archive"
  | e :: rest =>
    if eqFold (pathBase e.name) "data.csv" then .ok e.payload
    else findDataCSV rest

/-- Model of `openCSVFromZipBytes`: `parsed` is the result of
`zip.NewReader` on the body bytes (`none` when the bytes are not a zip
archive). -/
def openCSVFromZip (parsed : Option (List ArchiveEntry)) : Except String (List Nat) :=
  match parsed with
  | none => .error "invalid zip archive"
  | some entries => findDataCSV entries

/-- Model of `openCSVFromTarBytes`: `parsed` is the result of walking the tar
header chain (`none` when the bytes are not a tar archive). -/
def openCSVFromTar (parsed : Option (List ArchiveEntry)) : Except String (List Nat) :=
  match parsed with
  | none => .error "invalid tar archive"
  | some entries => findDataCSV entries

/-! ## Upload body read (`handlePricesPost`) -/

/-- The hard ceiling of `io.LimitReader(r.Body, 50<<20)`. -/
def maxUploadBytes : Nat := 50 * 1024 * 1024

/-- Model of `io.ReadAll(io.LimitReader(r.Body, 50<<20))`: at most 50 MiB of
the body are read; an oversized body is not an error, the read simply stops
at the ceiling. -/
def readUploadBody (body : List Nat) : List Nat :=
  body.take maxUploadBytes

/-! ## Accounting lemmas about the validation scan -/

theorem scanStep_totalCount (st : ScanState) (rec : RawRow) :
    (scanStep st rec).totalCount = st.totalCount + 1 := by
  unfold scanStep
  rcases h : rowNorm rec with _ | ⟨key, r⟩
  · simp
  · by_cases hk : key ∈ st.seenNoID <;> simp [hk]

theorem scanStep_classified (st : ScanState) (rec : RawRow) :
    (scanStep st rec).validRows.length + (scanStep st rec).rejectedAsDup =
      st.validRows.length + st.rejectedAsDup + 1 := by
  unfold scanStep
  rcases h : rowNorm rec with _ | ⟨key, r⟩
  · simp; omega
  · by_cases hk : key ∈ st.seenNoID <;> simp [hk] <;> omega

theorem scanFold_totalCount (rows : List RawRow) :
    ∀ st : ScanState, (rows.foldl scanStep st).totalCount = st.totalCount + rows.length := by
  induction rows with
  | nil => intro st; simp
  | cons rec rest ih =>
    intro st
    simp only [List.foldl_cons, List.length_cons, ih, scanStep_totalCount]
    omega

theorem scanFold_classified (rows : List RawRow) :
    ∀ st : ScanState,
      (rows.foldl scanStep st).validRows.length + (rows.foldl scanStep st).rejectedAsDup =
        st.validRows.length + st.rejectedAsDup + rows.length := by
  induction rows with
  | nil => intro st; simp
  | cons rec rest ih =>
    intro st
    have := scanStep_classified st rec
    simp only [List.foldl_cons, List.length_cons, ih]
    omega

theorem scanRows_totalCount (rows : List RawRow) :
    (scanRows rows).totalCount = rows.length := by
  have := scanFold_totalCount rows initScan
  simpa [scanRows, initScan] using this

theorem scanRows_classified (rows : List RawRow) :
    (scanRows rows).validRows.length + (scanRows rows).rejectedAsDup = rows.length := by
  have := scanFold_classified rows initScan
  simpa [scanRows, initScan] using this

/-! ## Lemmas about the transactional insert loop -/

theorem persistLoop_some (o : DBOracle) :
    ∀ (rs : List PriceRow) (i : Nat) (σ : Store) (a b : Nat)
      (σ' : Store) (it dp : Nat),
      persistLoop o i σ a b rs = some (σ', it, dp) →
      σ' = applyRows σ rs ∧ it + dp = a + b + rs.length ∧ a ≤ it ∧ b ≤ dp := by
  intro rs
  induction rs with
  | nil =>
    intro i σ a b σ' it dp h
    simp only [persistLoop, Option.some.injEq, Prod.mk.injEq] at h
    obtain ⟨h1, h2, h3⟩ := h
    subst h1; subst h2; subst h3
    simp [applyRows]
  | cons r rest ih =>
    intro i σ a b σ' it dp h
    simp only [persistLoop] at h
    split at h
    · exact absurd h (by simp)
    · split at h
      · obtain ⟨h1, h2, h3, h4⟩ := ih (i + 1) (insertPriceTx σ r).1 (a + 1) b σ' it dp h
        refine ⟨by simpa [applyRows] using h1, ?_, by omega, h4⟩
        simp only [List.length_cons]; omega
      · obtain ⟨h1, h2, h3, h4⟩ := ih (i + 1) (insertPriceTx σ r).1 a (b + 1) σ' it dp h
        refine ⟨by simpa [applyRows] using h1, ?_, h3, by omega⟩
        simp only [List.length_cons]; omega

theorem persistLoop_noFail (o : DBOracle) (hins : ∀ j, o.insertFails j = false) :
    ∀ (rs : List PriceRow) (i : Nat) (σ : Store) (a b : Nat),
      ∃ it dp, persistLoop o i σ a b rs = some (applyRows σ rs, it, dp) ∧
        it + dp = a + b + rs.length := by
  intro rs
  induction rs with
  | nil =>
    intro i σ a b
    exact ⟨a, b, by simp [persistLoop, applyRows]⟩
  | cons r rest ih =>
    intro i σ a b
    simp only [persistLoop, hins i, if_false]
    by_cases hc : (insertPriceTx σ r).2
    · obtain ⟨it, dp, h1, h2⟩ := ih (i + 1) (insertPriceTx σ r).1 (a + 1) b
      refine ⟨it, dp, ?_, by simp only [List.length_cons]; omega⟩
      simp [hc, h1, applyRows]
    · obtain ⟨it, dp, h1, h2⟩ := ih (i + 1) (insertPriceTx σ r).1 a (b + 1)
      refine ⟨it, dp, ?_, by simp only [List.length_cons]; omega⟩
      simp [hc, h1, applyRows]

/-! ## Lemmas about the whole upload unit of work -/

theorem applyRows_extends : ∀ (rs : List PriceRow) (σ : Store), ∃ Δ, applyRows σ rs = σ ++ Δ := by
  intro rs
  induction rs with
  | nil => intro σ; exact ⟨[], by simp [applyRows]⟩
  | cons r rest ih =>
    intro σ
    unfold applyRows insertPriceTx
    simp only [List.foldl_cons]
    by_cases hc : keyConflict σ r
    · obtain ⟨Δ, hΔ⟩ := ih σ
      exact ⟨Δ, by simpa [hc, applyRows] using hΔ⟩
    · obtain ⟨Δ, hΔ⟩ := ih
        (σ ++ [⟨r.inputId, r.createdAt, r.name, r.category, numeric2 r.price⟩])
      refine ⟨⟨r.inputId, r.createdAt, r.name, r.category, numeric2 r.price⟩ :: Δ, ?_⟩
      simpa [hc, applyRows] using hΔ

/-- Every error path of `ingestCSV` rolls the transaction back: the persisted
store is unchanged. -/
theorem ingestRows_error_spec (o : DBOracle) (σ : Store) (rows : List RawRow)
    (e : DBErr) (h : (ingestRows o σ rows).2 = .error e) :
    (ingestRows o σ rows).1 = σ := by
  unfold ingestRows at h ⊢
  cases hb : o.beginFails
  · simp only [hb, Bool.false_eq_true, if_false] at h ⊢
    rcases hp : persistLoop o 0 σ 0 (scanRows rows).rejectedAsDup (scanRows rows).validRows with
      _ | ⟨pending, items, dups⟩
    · simp [hp]
    · simp only [hp] at h ⊢
      cases hs : o.statsFails
      · simp only [hs, Bool.false_eq_true, if_false] at h ⊢
        cases hc : o.commitFails
        · simp [hc] at h
        · simp [hc]
      · simp [hs]
  · simp [hb]

/-- The success path of `ingestCSV`: the committed store is exactly the batch
of conditional inserts applied to the prior store, the aggregate query and the
commit both succeeded, and the response counters satisfy the global
accounting. -/
theorem ingestRows_ok_spec (o : DBOracle) (σ : Store) (rows : List RawRow)
    (resp : PostResponse) (h : (ingestRows o σ rows).2 = .ok resp) :
    (ingestRows o σ rows).1 = applyRows σ (scanRows rows).validRows ∧
    o.statsFails = false ∧ o.commitFails = false ∧
    resp.totalCount = rows.length ∧
    resp.totalItems + resp.duplicatesCount = rows.length ∧
    (scanRows rows).rejectedAsDup ≤ resp.duplicatesCount ∧
    resp.totalCategories = (statsTx (applyRows σ (scanRows rows).validRows)).1 ∧
    resp.totalPrice = (statsTx (applyRows σ (scanRows rows).validRows)).2 := by
  unfold ingestRows at h ⊢
  cases hb : o.beginFails
  · simp only [hb, Bool.false_eq_true, if_false] at h ⊢
    rcases hp : persistLoop o 0 σ 0 (scanRows rows).rejectedAsDup (scanRows rows).validRows with
      _ | ⟨pending, items, dups⟩
    · simp [hp] at h
    · obtain ⟨hσ, hsum, hit, hdp⟩ := persistLoop_some o (scanRows rows).validRows 0 σ 0
        (scanRows rows).rejectedAsDup pending items dups hp
      simp only [hp] at h ⊢
      cases hs : o.statsFails
      · simp only [hs, Bool.false_eq_true, if_false] at h ⊢
        cases hc : o.commitFails
        · simp only [hc, Bool.false_eq_true, if_false] at h ⊢
          have hre : resp =
              ⟨(scanRows rows).totalCount, dups, items, (statsTx pending).1,
               (statsTx pending).2⟩ := by
            injection h with h2; exact h2.symm
          subst hre
          have hacct := scanRows_classified rows
          refine ⟨hσ, by trivial, by trivial, ?_, ?_, ?_, ?_, ?_⟩
          · exact scanRows_totalCount rows
          · show items + dups = rows.length
            omega
          · show (scanRows rows).rejectedAsDup ≤ dups
            omega
          · show (statsTx pending).1 = _
            rw [hσ]
          · show (statsTx pending).2 = _
            rw [hσ]
        · simp [hc] at h
      · simp [hs] at h
  · simp [hb] at h

/-- When no database operation fails, the upload always succeeds. -/
theorem ingestRows_noFail_ok (σ : Store) (rows : List RawRow) :
    ∃ resp, (ingestRows noFailOracle σ rows).2 = .ok resp := by
  unfold ingestRows
  obtain ⟨it, dp, hp, _⟩ := persistLoop_noFail noFailOracle (fun _ => rfl)
    (scanRows rows).validRows 0 σ 0 (scanRows rows).rejectedAsDup
  refine ⟨⟨(scanRows rows).totalCount, dp, it,
    (statsTx (applyRows σ (scanRows rows).validRows)).1,
    (statsTx (applyRows σ (scanRows rows).validRows)).2⟩, ?_⟩
  rw [show noFailOracle.beginFails = false from rfl]
  simp only [Bool.false_eq_true, if_false, hp]
  rw [show noFailOracle.statsFails = false from rfl,
      show noFailOracle.commitFails = false from rfl]
  simp

theorem scanStep_rejected_le (st : ScanState) (rec : RawRow) :
    st.rejectedAsDup ≤ (scanStep st rec).rejectedAsDup := by
  unfold scanStep
  rcases h : rowNorm rec with _ | ⟨key, r⟩
  · simp
  · by_cases hk : key ∈ st.seenNoID <;> simp [hk]

theorem scanStep_rejected_none (st : ScanState) (rec : RawRow) (h : rowNorm rec = none) :
    (scanStep st rec).rejectedAsDup = st.rejectedAsDup + 1 := by
  unfold scanStep
  rw [h]

/-- Every malformed record is tallied into `rejectedAsDup`. -/
theorem scanFold_countP (rows : List RawRow) :
    ∀ st : ScanState,
      st.rejectedAsDup + (rows.countP fun rec => (rowNorm rec).isNone) ≤
        (rows.foldl scanStep st).rejectedAsDup := by
  induction rows with
  | nil => intro st; simp
  | cons rec rest ih =>
    intro st
    simp only [List.foldl_cons, List.countP_cons]
    have h2 := ih (scanStep st rec)
    by_cases h : rowNorm rec = none
    · have h3 := scanStep_rejected_none st rec h
      simp only [h, Option.isNone_none, if_pos]
      omega
    · have h3 := scanStep_rejected_le st rec
      rcases hr : rowNorm rec with _ | v
      · exact absurd hr h
      · simp only [hr, Option.isNone_some]
        simp only [Bool.false_eq_true, if_false]
        omega

/-- C2: the upload's persistence unit of work is atomic: all conditional
inserts and the aggregate computation commit or abort together.  On any error
(begin, insert, aggregate query, or commit) the persisted store is exactly as
before the upload and the caller gets a single error with no partial
response; on success the store is the full batch of conditional inserts and
the response carries the aggregate statistics of the committed store — an
inserted count is never reported alongside a failed aggregate computation. -/
theorem upload_transaction_atomic (o : DBOracle) (σ : Store) (rows : List RawRow) :
    (∀ e, (ingestRows o σ rows).2 = .error e → (ingestRows o σ rows).1 = σ) ∧
    (∀ resp, (ingestRows o σ rows).2 = .ok resp →
      (ingestRows o σ rows).1 = applyRows σ (scanRows rows).validRows ∧
      o.statsFails = false ∧ o.commitFails = false ∧
      resp.totalCategories = (statsTx ((ingestRows o σ rows).1)).1 ∧
      resp.totalPrice = (statsTx ((ingestRows o σ rows).1)).2) := by
  constructor
  · intro e he
    exact ingestRows_error_spec o σ rows e he
  · intro resp hr
    obtain ⟨h1, h2, h3, _, _, _, h6, h7⟩ := ingestRows_ok_spec o σ rows resp hr
    exact ⟨h1, h2, h3, by rw [h1]; exact h6, by rw [h1]; exact h7⟩

set_option maxRecDepth 2000 in
/-- Witness for C2: with a failing aggregate query, a one-row upload into a
one-row store leaves the store untouched. -/
theorem upload_transaction_atomic_witness :
    (ingestRows ⟨false, fun _ => false, true, false⟩
      [⟨"0", ⟨2024, 1, 1⟩, "x", "y", 5⟩]
      [["1", "n", "c", "10", "2024-01-02"]]).1 =
      [⟨"0", ⟨2024, 1, 1⟩, "x", "y", 5⟩] :=
  (upload_transaction_atomic ⟨false, fun _ => false, true, false⟩
    [⟨"0", ⟨2024, 1, 1⟩, "x", "y", 5⟩]
    [["1", "n", "c", "10", "2024-01-02"]]).1 DBErr.statsFailed
    (by decide)

/-- The sum of a constant-price batch. -/
theorem sum_map_const_price (l : List Nat) (c : ℚ) :
    (l.map (fun _ => c)).sum = l.length * c := by
  induction l with
  | nil => simp
  | cons a t ih =>
    simp [ih]
    ring

/-- C4 (amended): on every successful upload the returned `total_categories`
is the exact count of distinct categories over the entire persisted
population after the upload's inserts (which extend the prior store), and the
returned `total_price` is computed over that entire population — never just
the current upload's rows — as the exact `NUMERIC` sum of all persisted
prices scanned into a binary64 `float64` and re-rounded to two decimals in
binary64 arithmetic.  (Near the limit of `float64` precision this value can
differ from the exact store-wide sum by one cent; see the counterexample.) -/
theorem stats_cover_whole_store (o : DBOracle) (σ : Store) (rows : List RawRow)
    (resp : PostResponse) (h : (ingestRows o σ rows).2 = .ok resp) :
    (∃ Δ, (ingestRows o σ rows).1 = σ ++ Δ) ∧
    resp.totalCategories = distinctCategories ((ingestRows o σ rows).1) ∧
    resp.totalPrice =
      fdiv (goRoundF (fmul (rnd64 (totalPriceSum ((ingestRows o σ rows).1))) 100)) 100 := by
  obtain ⟨h1, _, _, _, _, _, h6, h7⟩ := ingestRows_ok_spec o σ rows resp h
  refine ⟨?_, ?_, ?_⟩
  · obtain ⟨Δ, hΔ⟩ := applyRows_extends (scanRows rows).validRows σ
    exact ⟨Δ, by rw [h1, hΔ]⟩
  · rw [h6, h1]; rfl
  · rw [h7, h1]; rfl

set_option maxRecDepth 2000 in
/-- Witness for C4: a one-row upload into a store holding another category
reports two distinct categories and the store-wide price sum. -/
theorem stats_cover_whole_store_witness :
    (∃ Δ, (ingestRows noFailOracle [⟨"0", ⟨2024, 1, 1⟩, "x", "y", 5⟩]
      [["1", "n", "c", "10", "2024-01-02"]]).1 =
        [⟨"0", ⟨2024, 1, 1⟩, "x", "y", 5⟩] ++ Δ) ∧
    (⟨1, 0, 1, 2, 15⟩ : PostResponse).totalCategories =
      distinctCategories ((ingestRows noFailOracle [⟨"0", ⟨2024, 1, 1⟩, "x", "y", 5⟩]
        [["1", "n", "c", "10", "2024-01-02"]]).1) ∧
    (⟨1, 0, 1, 2, 15⟩ : PostResponse).totalPrice =
      fdiv (goRoundF (fmul (rnd64 (totalPriceSum
        ((ingestRows noFailOracle [⟨"0", ⟨2024, 1, 1⟩, "x", "y", 5⟩]
          [["1", "n", "c", "10", "2024-01-02"]]).1))) 100)) 100 :=
  stats_cover_whole_store noFailOracle [⟨"0", ⟨2024, 1, 1⟩, "x", "y", 5⟩]
    [["1", "n", "c", "10", "2024-01-02"]] ⟨1, 0, 1, 2, 15⟩
    (by decide)

/-- The reported total price is the binary64 re-rounding of the scanned
store-wide sum. -/
theorem statsTx_snd (st : List DBEntry) :
    (statsTx st).2 = fdiv (goRoundF (fmul (rnd64 (totalPriceSum st)) 100)) 100 := rfl

set_option maxRecDepth 3000 in
set_option maxHeartbeats 2000000 in
/-- Counterexample to C4 as stated: a reachable store of 4000 distinct rows
priced 9999999999.99 plus one row of 0.02 sums to exactly 39999999999960.02,
but the `float64` Scan of the `NUMERIC` sum followed by the binary64
`math.Round(f*100)/100` reports `1279999999998721/32 = 39999999999960.03125`
(rendered `39999999999960.03` in the JSON response) — one cent above the
exact store-wide sum, so the returned `total_price` does not equal the sum of
prices over the persisted population. -/
theorem stats_float_sum_counterexample :
    totalPriceSum ((List.range 4000).map (fun i =>
        (⟨toString i, ⟨2024, 1, 1⟩, toString i, "c", 999999999999 / 100⟩ : DBEntry)) ++
      [⟨"x", ⟨2024, 1, 2⟩, "x", "c", 1 / 50⟩]) = 3999999999996002 / 100 ∧
    (statsTx ((List.range 4000).map (fun i =>
        (⟨toString i, ⟨2024, 1, 1⟩, toString i, "c", 999999999999 / 100⟩ : DBEntry)) ++
      [⟨"x", ⟨2024, 1, 2⟩, "x", "c", 1 / 50⟩])).2 = 1279999999998721 / 32 ∧
    (1279999999998721 / 32 : ℚ) ≠ (3999999999996002 / 100 : ℚ) := by
  have hsum : totalPriceSum ((List.range 4000).map (fun i =>
      (⟨toString i, ⟨2024, 1, 1⟩, toString i, "c", 999999999999 / 100⟩ : DBEntry)) ++
      [⟨"x", ⟨2024, 1, 2⟩, "x", "c", 1 / 50⟩]) = 3999999999996002 / 100 := by
    unfold totalPriceSum
    rw [List.map_append, List.sum_append, List.map_map]
    rw [show (DBEntry.price ∘ fun i =>
        (⟨toString i, ⟨2024, 1, 1⟩, toString i, "c", 999999999999 / 100⟩ : DBEntry)) =
      (fun _ => (999999999999 / 100 : ℚ)) from rfl]
    rw [sum_map_const_price, List.length_range]
    norm_num
  refine ⟨hsum, ?_, by norm_num⟩
  rw [statsTx_snd, hsum]
  decide

/-- C6: every row-level problem (wrong field count, empty required field,
bad price, bad date) is recovered locally: whatever the rows are, the upload
never aborts for row-level reasons (with sound persistence it always returns
a response), every malformed record is counted into the combined
rejected/duplicate counter, and total rows seen equals rows inserted plus
rows counted rejected-or-duplicate. -/
theorem row_level_problems_recovered (σ : Store) (rows : List RawRow) :
    ∃ resp, (ingestRows noFailOracle σ rows).2 = .ok resp ∧
      resp.totalCount = rows.length ∧
      resp.totalCount = resp.totalItems + resp.duplicatesCount ∧
      (rows.countP fun rec => (rowNorm rec).isNone) ≤ resp.duplicatesCount := by
  obtain ⟨resp, hok⟩ := ingestRows_noFail_ok σ rows
  obtain ⟨_, _, _, h4, h5, h6, _, _⟩ := ingestRows_ok_spec _ _ _ _ hok
  have hc : (rows.countP fun rec => (rowNorm rec).isNone) ≤ (scanRows rows).rejectedAsDup := by
    have := scanFold_countP rows initScan
    simpa [scanRows, initScan] using this
  exact ⟨resp, hok, h4, by omega, le_trans hc h6⟩

/-! ## Cross-upload deduplication (claim C3) -/

theorem applyRows_cons (σ : Store) (r : PriceRow) (rs : List PriceRow) :
    applyRows σ (r :: rs) = applyRows (insertPriceTx σ r).1 rs := rfl

theorem keyConflict_append (σ Δ : Store) (r : PriceRow) (h : keyConflict σ r = true) :
    keyConflict (σ ++ Δ) r = true := by
  unfold keyConflict at h ⊢
  simp only [List.any_append, Bool.or_eq_true]
  exact Or.inl h

theorem insertPriceTx_conflict (σ : Store) (r : PriceRow) :
    keyConflict (insertPriceTx σ r).1 r = true := by
  unfold insertPriceTx
  by_cases hc : keyConflict σ r
  · simpa [hc]
  · simp only [hc, Bool.false_eq_true, if_false]
    unfold keyConflict
    simp [List.any_append]

/-- After the batch is applied, every row of the batch collides with the
unique key. -/
theorem applyRows_conflict :
    ∀ (rs : List PriceRow) (σ : Store) (r : PriceRow), r ∈ rs →
      keyConflict (applyRows σ rs) r = true := by
  intro rs
  induction rs with
  | nil => intro σ r hr; cases hr
  | cons x rest ih =>
    intro σ r hr
    rw [applyRows_cons]
    rcases List.mem_cons.mp hr with h | h
    · subst h
      obtain ⟨Δ, hΔ⟩ := applyRows_extends rest (insertPriceTx σ r).1
      rw [hΔ]
      exact keyConflict_append _ _ _ (insertPriceTx_conflict σ r)
    · exact ih (insertPriceTx σ x).1 r h

/-- When every batch row already collides with the persisted unique key, the
insert loop inserts nothing and reclassifies every row as a duplicate. -/
theorem persistLoop_allConflict (o : DBOracle) (hins : ∀ j, o.insertFails j = false) :
    ∀ (rs : List PriceRow) (i : Nat) (σ : Store) (a b : Nat),
      (∀ r ∈ rs, keyConflict σ r = true) →
      persistLoop o i σ a b rs = some (σ, a, b + rs.length) := by
  intro rs
  induction rs with
  | nil => intro i σ a b _; simp [persistLoop]
  | cons r rest ih =>
    intro i σ a b hall
    have hc : keyConflict σ r = true := hall r (by simp)
    have hstep : insertPriceTx σ r = (σ, false) := by
      simp [insertPriceTx, hc]
    simp only [persistLoop, hins i, Bool.false_eq_true, if_false, hstep]
    rw [ih (i + 1) σ a (b + 1) (fun r' hr' => hall r' (List.mem_cons_of_mem _ hr'))]
    have hn : b + 1 + rest.length = b + (r :: rest).length := by
      simp only [List.length_cons]; omega
    rw [hn]

/-- C3: uploading an archive whose rows are all valid into an empty store and
then uploading the identical archive a second time yields, on the second
upload, an inserted count of 0 and a duplicate counter equal to the archive's
row count, and leaves the store unchanged — the persisted unique key on
`(date, name, category, price)` makes upload idempotent. -/
theorem reupload_idempotent (rows : List RawRow)
    (hv : ∀ rec ∈ rows, (rowNorm rec).isSome = true)
    (σ1 : Store) (r1 : PostResponse)
    (h1 : ingestRows noFailOracle [] rows = (σ1, .ok r1)) :
    ∃ r2, ingestRows noFailOracle σ1 rows = (σ1, .ok r2) ∧
      r2.totalItems = 0 ∧ r2.duplicatesCount = rows.length := by
  have hok : (ingestRows noFailOracle [] rows).2 = .ok r1 := by rw [h1]
  obtain ⟨hs, _, _, _, _, _, _, _⟩ := ingestRows_ok_spec _ _ _ _ hok
  have hσ1 : σ1 = applyRows [] (scanRows rows).validRows := by
    have hfst : (ingestRows noFailOracle [] rows).1 = σ1 := by rw [h1]
    rw [← hfst, hs]
  have hconf : ∀ r ∈ (scanRows rows).validRows, keyConflict σ1 r = true := by
    intro r hr
    rw [hσ1]
    exact applyRows_conflict _ _ r hr
  have hloop := persistLoop_allConflict noFailOracle (fun _ => rfl)
    (scanRows rows).validRows 0 σ1 0 (scanRows rows).rejectedAsDup hconf
  refine ⟨⟨(scanRows rows).totalCount,
    (scanRows rows).rejectedAsDup + (scanRows rows).validRows.length, 0,
    (statsTx σ1).1, (statsTx σ1).2⟩, ?_, rfl, ?_⟩
  · unfold ingestRows
    rw [show noFailOracle.beginFails = false from rfl]
    simp only [Bool.false_eq_true, if_false, hloop]
    rw [show noFailOracle.statsFails = false from rfl,
        show noFailOracle.commitFails = false from rfl]
    simp
  · show (scanRows rows).rejectedAsDup + (scanRows rows).validRows.length = rows.length
    have := scanRows_classified rows
    omega

set_option maxRecDepth 2000 in
/-- Witness for C3: re-uploading a one-row archive after it was ingested into
an empty store inserts nothing and reports one duplicate. -/
theorem reupload_idempotent_witness :
    ∃ r2, ingestRows noFailOracle [⟨"1", ⟨2024, 1, 2⟩, "n", "c", 10⟩]
        [["1", "n", "c", "10", "2024-01-02"]] =
      ([⟨"1", ⟨2024, 1, 2⟩, "n", "c", 10⟩], .ok r2) ∧
      r2.totalItems = 0 ∧ r2.duplicatesCount = 1 :=
  reupload_idempotent [["1", "n", "c", "10", "2024-01-02"]]
    (by decide)
    [⟨"1", ⟨2024, 1, 2⟩, "n", "c", 10⟩] ⟨1, 0, 1, 1, 10⟩
    (by decide)

/-! ## The date layout is canonical: parsing inverts formatting -/

theorem isDigitChar_bounds (c : Char) (h : isDigitChar c = true) :
    48 ≤ c.toNat ∧ c.toNat ≤ 57 := by
  simp only [isDigitChar, Bool.and_eq_true, decide_eq_true_eq] at h
  exact h

theorem digitChar_digitVal (c : Char) (h : isDigitChar c = true) :
    digitChar (digitVal c) = c := by
  obtain ⟨h1, h2⟩ := isDigitChar_bounds c h
  unfold digitChar digitVal
  rw [show 48 + (c.toNat - 48) = c.toNat by omega, Char.ofNat_toNat]

theorem digitVal_lt (c : Char) (h : isDigitChar c = true) : digitVal c < 10 := by
  obtain ⟨h1, h2⟩ := isDigitChar_bounds c h
  unfold digitVal
  omega

theorem natOfDigits_four (a b c d : Char) :
    natOfDigits [a, b, c, d] =
      digitVal a * 1000 + digitVal b * 100 + digitVal c * 10 + digitVal d := by
  simp only [natOfDigits, List.foldl]
  ring

theorem natOfDigits_two (a b : Char) :
    natOfDigits [a, b] = digitVal a * 10 + digitVal b := by
  simp only [natOfDigits, List.foldl]
  ring

/-- `time.Parse("2006-01-02", ·)` accepts only the canonical rendering of the
date it returns: the layout is zero-padded and fixed-width, so formatting the
parsed date reproduces the input string. -/
theorem parseGoDate_format (s : String) (dt : Date) (h : parseGoDate s = some dt) :
    formatGoDate dt = s := by
  obtain ⟨cs⟩ := s
  unfold parseGoDate at h
  split at h
  next c1 c2 c3 c4 c5 c6 c7 c8 c9 c10 heq =>
    replace heq : cs = [c1, c2, c3, c4, c5, c6, c7, c8, c9, c10] := heq
    subst heq
    split at h
    next hcond =>
      obtain ⟨hd1, hd2, hall⟩ := hcond
      subst hd1; subst hd2
      simp only [allDigits, List.all_cons, List.all_nil, Bool.and_eq_true, and_true] at hall
      obtain ⟨hc1, hc2, hc3, hc4, hc6, hc7, hc9, hc10⟩ := hall
      replace h : (if 1 ≤ natOfDigits [c6, c7] ∧ natOfDigits [c6, c7] ≤ 12 ∧
          1 ≤ natOfDigits [c9, c10] ∧
          natOfDigits [c9, c10] ≤ daysInMonth (natOfDigits [c1, c2, c3, c4]) (natOfDigits [c6, c7])
        then some (⟨natOfDigits [c1, c2, c3, c4], natOfDigits [c6, c7],
          natOfDigits [c9, c10]⟩ : Date) else none) = some dt := h
      split at h
      next hrange =>
        have hdt : dt = ⟨natOfDigits [c1, c2, c3, c4], natOfDigits [c6, c7],
            natOfDigits [c9, c10]⟩ := by
          injection h with h2
          exact h2.symm
        subst hdt
        have b1 := digitVal_lt c1 hc1
        have b2 := digitVal_lt c2 hc2
        have b3 := digitVal_lt c3 hc3
        have b4 := digitVal_lt c4 hc4
        have b6 := digitVal_lt c6 hc6
        have b7 := digitVal_lt c7 hc7
        have b9 := digitVal_lt c9 hc9
        have b10 := digitVal_lt c10 hc10
        unfold formatGoDate
        refine congrArg String.mk ?_
        simp only [natOfDigits_four, natOfDigits_two]
        have e1 : (digitVal c1 * 1000 + digitVal c2 * 100 + digitVal c3 * 10 + digitVal c4)
            / 1000 % 10 = digitVal c1 := by omega
        have e2 : (digitVal c1 * 1000 + digitVal c2 * 100 + digitVal c3 * 10 + digitVal c4)
            / 100 % 10 = digitVal c2 := by omega
        have e3 : (digitVal c1 * 1000 + digitVal c2 * 100 + digitVal c3 * 10 + digitVal c4)
            / 10 % 10 = digitVal c3 := by omega
        have e4 : (digitVal c1 * 1000 + digitVal c2 * 100 + digitVal c3 * 10 + digitVal c4)
            % 10 = digitVal c4 := by omega
        have e6 : (digitVal c6 * 10 + digitVal c7) / 10 % 10 = digitVal c6 := by omega
        have e7 : (digitVal c6 * 10 + digitVal c7) % 10 = digitVal c7 := by omega
        have e9 : (digitVal c9 * 10 + digitVal c10) / 10 % 10 = digitVal c9 := by omega
        have e10 : (digitVal c9 * 10 + digitVal c10) % 10 = digitVal c10 := by omega
        rw [e1, e2, e3, e4, e6, e7, e9, e10,
            digitChar_digitVal c1 hc1, digitChar_digitVal c2 hc2,
            digitChar_digitVal c3 hc3, digitChar_digitVal c4 hc4,
            digitChar_digitVal c6 hc6, digitChar_digitVal c7 hc7,
            digitChar_digitVal c9 hc9, digitChar_digitVal c10 hc10]
      next => exact absurd h (by simp)
    next => exact absurd h (by simp)
  next => exact absurd h (by simp)

/-! ## In-upload dedup key semantics (claim C1) -/

/-- The dedup key of a retained row, reconstructed from the row itself (its
date string is canonical by `parseGoDate_format`). -/
def keyOf (r : PriceRow) : String :=
  rowKey (formatGoDate r.createdAt) r.name r.category r.price

theorem rowNorm_shape (rec : RawRow) (key : String) (r : PriceRow)
    (h : rowNorm rec = some (key, r)) :
    ∃ f0 f1 f2 f3 f4, rec = [f0, f1, f2, f3, f4] := by
  unfold rowNorm at h
  split at h
  next f0 f1 f2 f3 f4 => exact ⟨f0, f1, f2, f3, f4, rfl⟩
  next => exact absurd h (by simp)

theorem rowNorm_fields (f0 f1 f2 f3 f4 : String) (key : String) (r : PriceRow)
    (h : rowNorm [f0, f1, f2, f3, f4] = some (key, r)) :
    r.inputId = goTrimSpace f0 ∧ r.name = goTrimSpace f1 ∧ r.category = goTrimSpace f2 ∧
    parsePrice (goTrimSpace f3) = some r.price ∧
    parseGoDate (goTrimSpace f4) = some r.createdAt ∧
    key = rowKey (goTrimSpace f4) (goTrimSpace f1) (goTrimSpace f2) r.price ∧
    goTrimSpace f0 ≠ "" ∧ goTrimSpace f1 ≠ "" ∧ goTrimSpace f2 ≠ "" ∧
    goTrimSpace f3 ≠ "" ∧ goTrimSpace f4 ≠ "" := by
  replace h : (if goTrimSpace f0 = "" ∨ goTrimSpace f4 = "" ∨ goTrimSpace f1 = "" ∨
      goTrimSpace f2 = "" ∨ goTrimSpace f3 = "" then none
    else
      match parseGoDate (goTrimSpace f4) with
      | none => none
      | some createdAt =>
        match parsePrice (goTrimSpace f3) with
        | none => none
        | some price =>
          some (rowKey (goTrimSpace f4) (goTrimSpace f1) (goTrimSpace f2) price,
            (⟨goTrimSpace f0, createdAt, goTrimSpace f1, goTrimSpace f2, price⟩ : PriceRow))) =
      some (key, r) := h
  split at h
  next => exact absurd h (by simp)
  next hne =>
    push_neg at hne
    obtain ⟨hne0, hne4, hne1, hne2, hne3⟩ := hne
    rcases hpd : parseGoDate (goTrimSpace f4) with _ | d
    · rw [hpd] at h; exact absurd h (by simp)
    · rw [hpd] at h
      rcases hpp : parsePrice (goTrimSpace f3) with _ | p
      · rw [hpp] at h; exact absurd h (by simp)
      · rw [hpp] at h
        obtain ⟨hkey, hr⟩ : key = rowKey (goTrimSpace f4) (goTrimSpace f1)
            (goTrimSpace f2) p ∧
            r = ⟨goTrimSpace f0, d, goTrimSpace f1, goTrimSpace f2, p⟩ := by
          injection h with h2
          injection h2 with ha hb
          exact ⟨ha.symm, hb.symm⟩
        subst hr
        exact ⟨rfl, rfl, rfl, rfl, rfl, hkey, hne0, hne1, hne2, hne3, hne4⟩

/-- The key computed inside the loop coincides with the key reconstructed
from the retained row. -/
theorem rowNorm_key (rec : RawRow) (key : String) (r : PriceRow)
    (h : rowNorm rec = some (key, r)) : key = keyOf r := by
  obtain ⟨f0, f1, f2, f3, f4, hshape⟩ := rowNorm_shape rec key r h
  subst hshape
  obtain ⟨_, hn, hc, _, hd, hkey, _⟩ := rowNorm_fields f0 f1 f2 f3 f4 key r h
  rw [hkey, keyOf, parseGoDate_format _ _ hd, hn, hc]

/-- The dedup key ignores the first CSV field entirely. -/
theorem rowNorm_id_invariant (f0 g0 f1 f2 f3 f4 : String) (key : String) (r : PriceRow)
    (h : rowNorm [f0, f1, f2, f3, f4] = some (key, r)) (hg : goTrimSpace g0 ≠ "") :
    rowNorm [g0, f1, f2, f3, f4] = some (key, ⟨goTrimSpace g0, r.createdAt, r.name,
      r.category, r.price⟩) := by
  obtain ⟨_, hn, hc, hp, hd, hkey, _, hne1, hne2, hne3, hne4⟩ :=
    rowNorm_fields f0 f1 f2 f3 f4 key r h
  show (if goTrimSpace g0 = "" ∨ goTrimSpace f4 = "" ∨ goTrimSpace f1 = "" ∨
      goTrimSpace f2 = "" ∨ goTrimSpace f3 = "" then none
    else
      match parseGoDate (goTrimSpace f4) with
      | none => none
      | some createdAt =>
        match parsePrice (goTrimSpace f3) with
        | none => none
        | some price =>
          some (rowKey (goTrimSpace f4) (goTrimSpace f1) (goTrimSpace f2) price,
            (⟨goTrimSpace g0, createdAt, goTrimSpace f1, goTrimSpace f2, price⟩ : PriceRow))) =
      some (key, (⟨goTrimSpace g0, r.createdAt, r.name, r.category, r.price⟩ : PriceRow))
  rw [if_neg, hd, hp]
  · rw [hkey, hn, hc]
  · push_neg
    exact ⟨hg, hne4, hne1, hne2, hne3⟩

/-- The scan's `seenNoID` set is exactly the keys of the retained rows, in
order. -/
def scanInv (st : ScanState) : Prop := st.seenNoID = st.validRows.map keyOf

theorem scanStep_inv (st : ScanState) (rec : RawRow) (h : scanInv st) :
    scanInv (scanStep st rec) := by
  unfold scanStep
  rcases hn : rowNorm rec with _ | ⟨key, r⟩
  · exact h
  · by_cases hk : key ∈ st.seenNoID
    · simpa [hk] using h
    · simp only [hk, if_false, scanInv] at h ⊢
      rw [h]
      simp [List.map_append, rowNorm_key rec key r hn]

theorem scanFold_inv (rows : List RawRow) :
    ∀ st : ScanState, scanInv st → scanInv (rows.foldl scanStep st) := by
  induction rows with
  | nil => intro st h; exact h
  | cons rec rest ih =>
    intro st h
    exact ih (scanStep st rec) (scanStep_inv st rec h)

theorem scanRows_inv (rows : List RawRow) : scanInv (scanRows rows) :=
  scanFold_inv rows initScan rfl

theorem scanStep_seen_subset (st : ScanState) (rec : RawRow) :
    st.seenNoID ⊆ (scanStep st rec).seenNoID := by
  unfold scanStep
  rcases hn : rowNorm rec with _ | ⟨key, r⟩
  · exact fun x hx => hx
  · by_cases hk : key ∈ st.seenNoID
    · simp only [hk, if_true]
      exact fun x hx => hx
    · simp only [hk, if_false]
      exact fun x hx => List.mem_append_left _ hx

theorem scanFold_seen_subset (rows : List RawRow) :
    ∀ st : ScanState, st.seenNoID ⊆ (rows.foldl scanStep st).seenNoID := by
  induction rows with
  | nil => intro st; exact fun x hx => hx
  | cons rec rest ih =>
    intro st
    exact fun x hx => ih (scanStep st rec) (scanStep_seen_subset st rec hx)

theorem scanStep_seen_mem (st : ScanState) (rec : RawRow) (key : String) (r : PriceRow)
    (h : rowNorm rec = some (key, r)) : key ∈ (scanStep st rec).seenNoID := by
  unfold scanStep
  rw [h]
  by_cases hk : key ∈ st.seenNoID
  · simpa [hk]
  · simp [hk]

/-- A validated record whose key was already seen is rejected: the duplicate
counter advances and the row list is unchanged. -/
theorem scanStep_reject (st : ScanState) (rec : RawRow) (key : String) (r : PriceRow)
    (h : rowNorm rec = some (key, r)) (hk : key ∈ st.seenNoID) :
    (scanStep st rec).rejectedAsDup = st.rejectedAsDup + 1 ∧
    (scanStep st rec).validRows = st.validRows := by
  unfold scanStep
  rw [h]
  simp [hk]

/-- A validated record with an unseen key is retained. -/
theorem scanStep_retain (st : ScanState) (rec : RawRow) (key : String) (r : PriceRow)
    (h : rowNorm rec = some (key, r)) (hk : key ∉ st.seenNoID) :
    (scanStep st rec).rejectedAsDup = st.rejectedAsDup ∧
    (scanStep st rec).validRows = st.validRows ++ [r] := by
  unfold scanStep
  rw [h]
  simp [hk]

/-- C1 (amended): within one upload a validated row is classified as a
duplicate iff its serialized dedup key — date string, name, category and
two-decimal price joined with `"|"` — equals the key of some earlier validated
row; the external identifier is excluded from the key, so any later row that
differs from an earlier validated row only in the external identifier is
counted as a duplicate and is not retained.  (Key equality is implied by
equality of the `(date, name, category, price)` tuple, but when a name or
category contains the separator, rows with different tuples can share a
key.) -/
theorem dedup_key_semantics (rows : List RawRow) (rec : RawRow) (key : String)
    (r : PriceRow) (h : rowNorm rec = some (key, r)) :
    (key = keyOf r) ∧
    ((scanStep (scanRows rows) rec).rejectedAsDup = (scanRows rows).rejectedAsDup + 1 ↔
      ∃ r' ∈ (scanRows rows).validRows, keyOf r' = key) ∧
    ((¬ ∃ r' ∈ (scanRows rows).validRows, keyOf r' = key) →
      (scanStep (scanRows rows) rec).validRows = (scanRows rows).validRows ++ [r]) ∧
    ((∃ r' ∈ (scanRows rows).validRows, keyOf r' = key) →
      (scanStep (scanRows rows) rec).validRows = (scanRows rows).validRows) ∧
    (∀ g0 f0 f1 f2 f3 f4, rec = [f0, f1, f2, f3, f4] → goTrimSpace g0 ≠ "" →
      ∀ mid : List RawRow,
        (scanStep ((rec :: mid).foldl scanStep (scanRows rows)) [g0, f1, f2, f3, f4]).rejectedAsDup
          = ((rec :: mid).foldl scanStep (scanRows rows)).rejectedAsDup + 1 ∧
        (scanStep ((rec :: mid).foldl scanStep (scanRows rows)) [g0, f1, f2, f3, f4]).validRows
          = ((rec :: mid).foldl scanStep (scanRows rows)).validRows) := by
  have hinv := scanRows_inv rows
  have hmem : key ∈ (scanRows rows).seenNoID ↔
      ∃ r' ∈ (scanRows rows).validRows, keyOf r' = key := by
    rw [hinv, List.mem_map]
  refine ⟨rowNorm_key rec key r h, ?_, ?_, ?_, ?_⟩
  · rw [← hmem]
    by_cases hk : key ∈ (scanRows rows).seenNoID
    · exact ⟨fun _ => hk, fun _ => (scanStep_reject _ _ _ _ h hk).1⟩
    · constructor
      · intro habs
        have hr := (scanStep_retain _ _ _ _ h hk).1
        rw [hr] at habs
        exact absurd habs (by omega)
      · intro hcon
        exact absurd hcon hk
  · rw [← hmem]
    intro hk
    exact (scanStep_retain _ _ _ _ h hk).2
  · rw [← hmem]
    intro hk
    exact (scanStep_reject _ _ _ _ h hk).2
  · intro g0 f0 f1 f2 f3 f4 hshape hg mid
    subst hshape
    have h2 := rowNorm_id_invariant f0 g0 f1 f2 f3 f4 key r h hg
    have hseen : key ∈ ((([f0, f1, f2, f3, f4] : RawRow) :: mid).foldl scanStep
        (scanRows rows)).seenNoID := by
      simp only [List.foldl_cons]
      exact scanFold_seen_subset mid _
        (scanStep_seen_mem (scanRows rows) _ key r h)
    exact ⟨(scanStep_reject _ _ _ _ h2 hseen).1, (scanStep_reject _ _ _ _ h2 hseen).2⟩

set_option maxRecDepth 2000 in
/-- Witness for C1 (amended): in a two-row upload where the second row
differs from the first only in the external identifier, the second row is
counted as a duplicate and not retained. -/
theorem dedup_key_semantics_witness :
    ((scanStep (scanRows []) ["1", "n", "c", "10", "2024-01-02"]).rejectedAsDup =
        (scanRows []).rejectedAsDup + 1 ↔
      ∃ r' ∈ (scanRows []).validRows,
        keyOf r' = "2024-01-02|n|c|10.00") ∧
    ((scanStep ((["1", "n", "c", "10", "2024-01-02"] :: []).foldl scanStep (scanRows []))
        ["2", "n", "c", "10", "2024-01-02"]).rejectedAsDup =
      ((["1", "n", "c", "10", "2024-01-02"] :: []).foldl scanStep (scanRows [])).rejectedAsDup
        + 1) := by
  have hnorm : rowNorm ["1", "n", "c", "10", "2024-01-02"] =
      some ("2024-01-02|n|c|10.00",
        ⟨"1", ⟨2024, 1, 2⟩, "n", "c", 10⟩) := by
    decide
  have hmain := dedup_key_semantics [] ["1", "n", "c", "10", "2024-01-02"]
    "2024-01-02|n|c|10.00" ⟨"1", ⟨2024, 1, 2⟩, "n", "c", 10⟩ hnorm
  refine ⟨hmain.2.1, ?_⟩
  exact (hmain.2.2.2.2 "2" "1" "n" "c" "10" "2024-01-02" rfl
    (by decide) []).1

set_option maxRecDepth 2000 in
/-- Counterexample to C1 as stated: the dedup key is a `"|"`-joined string,
so a name containing the separator collides with a different
`(name, category)` split.  The second row below has a different
`(date, name, category, price)` tuple from the first (its name is `"a"`, not
`"a|b"`), yet it is classified as a duplicate and dropped. -/
theorem dedup_tuple_counterexample :
    (scanRows [["1", "a|b", "c", "10", "2024-01-02"],
               ["2", "a", "b|c", "10", "2024-01-02"]]).rejectedAsDup = 1 ∧
    (scanRows [["1", "a|b", "c", "10", "2024-01-02"],
               ["2", "a", "b|c", "10", "2024-01-02"]]).validRows =
      [⟨"1", ⟨2024, 1, 2⟩, "a|b", "c", 10⟩] ∧
    rowNorm ["2", "a", "b|c", "10", "2024-01-02"] =
      some ("2024-01-02|a|b|c|10.00", ⟨"2", ⟨2024, 1, 2⟩, "a", "b|c", 10⟩) ∧
    (("a", "b|c") ≠ ("a|b", "c")) := by
  refine ⟨?_, ?_, ?_, by decide⟩ <;> decide

/-! ## Export parameter validation (claims C5, C10) -/

theorem parsePriceParam_ok (s m : String) (o : Option ℤ)
    (h : parsePriceParam s m = .ok o) :
    (s = "" ∧ o = none) ∨ ∃ i, o = some i ∧ goAtoi s = some i ∧ 0 < i := by
  unfold parsePriceParam at h
  by_cases h0 : s = ""
  · rw [if_pos h0] at h
    left
    exact ⟨h0, by injection h with h2; exact h2.symm⟩
  · rw [if_neg h0] at h
    split at h
    next => exact absurd h (by simp)
    next i ha =>
      by_cases hle : i ≤ 0
      · rw [if_pos hle] at h; exact absurd h (by simp)
      · rw [if_neg hle] at h
        right
        exact ⟨i, by injection h with h2; exact h2.symm, ha, by omega⟩

/-- When the store read executes, each query parameter was accepted, and any
pair of supplied price bounds is in order. -/
theorem validateGet_ok_inv (sS eS mS xS : String) (f : GetFilter)
    (h : validateGet sS eS mS xS = .ok f) :
    parseDateParam (goTrimSpace sS) "invalid start" = .ok f.startDate ∧
    parseDateParam (goTrimSpace eS) "invalid end" = .ok f.endDate ∧
    parsePriceParam (goTrimSpace mS) "invalid min" = .ok f.minPrice ∧
    parsePriceParam (goTrimSpace xS) "invalid max" = .ok f.maxPrice ∧
    (∀ a b, f.minPrice = some a → f.maxPrice = some b → a ≤ b) := by
  unfold validateGet at h
  rcases h1 : parseDateParam (goTrimSpace sS) "invalid start" with e | sd
  · rw [h1] at h; exact absurd h (by simp)
  · rw [h1] at h
    rcases h2 : parseDateParam (goTrimSpace eS) "invalid end" with e | ed
    · rw [h2] at h; exact absurd h (by simp)
    · rw [h2] at h
      rcases h3 : parsePriceParam (goTrimSpace mS) "invalid min" with e | mp
      · rw [h3] at h; exact absurd h (by simp)
      · rw [h3] at h
        rcases h4 : parsePriceParam (goTrimSpace xS) "invalid max" with e | xp
        · rw [h4] at h; exact absurd h (by simp)
        · rw [h4] at h
          rcases mp with _ | a <;> rcases xp with _ | b
          · have hf : f = ⟨sd, ed, none, none⟩ := by injection h with h5; exact h5.symm
            subst hf
            exact ⟨rfl, rfl, rfl, rfl, by intro a b ha _; simp at ha⟩
          · have hf : f = ⟨sd, ed, none, some b⟩ := by injection h with h5; exact h5.symm
            subst hf
            exact ⟨rfl, rfl, rfl, rfl, by intro a b ha _; simp at ha⟩
          · have hf : f = ⟨sd, ed, some a, none⟩ := by injection h with h5; exact h5.symm
            subst hf
            exact ⟨rfl, rfl, rfl, rfl, by intro a b _ hb; simp at hb⟩
          · replace h : (if b < a then (Except.error "min > max" : Except String GetFilter)
                else Except.ok ⟨sd, ed, some a, some b⟩) = Except.ok f := h
            by_cases hba : b < a
            · rw [if_pos hba] at h; exact absurd h (by simp)
            · rw [if_neg hba] at h
              have hf : f = ⟨sd, ed, some a, some b⟩ := by injection h with h5; exact h5.symm
              subst hf
              refine ⟨rfl, rfl, rfl, rfl, ?_⟩
              intro a' b' ha hb
              simp only [Option.some.injEq] at ha hb
              subst ha; subst hb
              omega

/-- C5 (amended): only the price dimension's inverted bounds are rejected
before the read: whenever the store read executes, any pair of supplied price
bounds satisfies `min ≤ max`; inverted date bounds are *not* rejected — a
request with both dates supplied and no price bounds always reaches the read,
whatever the order of the two dates. -/
theorem export_range_check (sS eS mS xS : String) :
    (∀ f, validateGet sS eS mS xS = .ok f →
      ∀ a b, f.minPrice = some a → f.maxPrice = some b → a ≤ b) ∧
    (∀ d1 d2, parseGoDate (goTrimSpace sS) = some d1 →
      parseGoDate (goTrimSpace eS) = some d2 →
      validateGet sS eS "" "" = .ok ⟨some d1, some d2, none, none⟩) := by
  constructor
  · intro f hok a b
    exact (validateGet_ok_inv sS eS mS xS f hok).2.2.2.2 a b
  · intro d1 d2 hd1 hd2
    have hs0 : goTrimSpace sS ≠ "" := by
      intro h0
      rw [h0] at hd1
      exact Option.noConfusion hd1
    have he0 : goTrimSpace eS ≠ "" := by
      intro h0
      rw [h0] at hd2
      exact Option.noConfusion hd2
    have e1 : parseDateParam (goTrimSpace sS) "invalid start" = .ok (some d1) := by
      unfold parseDateParam
      rw [if_neg hs0, hd1]
    have e2 : parseDateParam (goTrimSpace eS) "invalid end" = .ok (some d2) := by
      unfold parseDateParam
      rw [if_neg he0, hd2]
    have e3 : parsePriceParam (goTrimSpace "") "invalid min" = .ok none := by
      rw [show goTrimSpace "" = "" from rfl]
      unfold parsePriceParam
      rw [if_pos rfl]
    have e4 : parsePriceParam (goTrimSpace "") "invalid max" = .ok none := by
      rw [show goTrimSpace "" = "" from rfl]
      unfold parsePriceParam
      rw [if_pos rfl]
    unfold validateGet
    rw [e1, e2, e3, e4]

/-- Witness for C5 (amended): supplied in-order price bounds are in order,
and a request with inverted dates still reaches the read. -/
theorem export_range_check_witness :
    (3 : ℤ) ≤ 5 ∧
    validateGet "2024-01-02" "2024-01-01" "" "" =
      .ok ⟨some ⟨2024, 1, 2⟩, some ⟨2024, 1, 1⟩, none, none⟩ :=
  ⟨(export_range_check "" "" "3" "5").1 ⟨none, none, some 3, some 5⟩ (by decide) 3 5 rfl rfl,
   (export_range_check "2024-01-02" "2024-01-01" "" "").2 ⟨2024, 1, 2⟩ ⟨2024, 1, 1⟩
     (by decide) (by decide)⟩

/-- Counterexample to C5 as stated: a request whose date bounds are both
supplied and inverted (`start` strictly after `end`) is not rejected — the
validation succeeds and the store read executes. -/
theorem export_inverted_dates_counterexample :
    dateLt ⟨2024, 1, 1⟩ ⟨2024, 1, 2⟩ ∧
    validateGet "2024-01-02" "2024-01-01" "" "" =
      .ok ⟨some ⟨2024, 1, 2⟩, some ⟨2024, 1, 1⟩, none, none⟩ := by
  constructor <;> decide

/-- C10: at the export entry point each supplied price bound must parse via
`strconv.Atoi` as an integer strictly greater than zero: whenever the store
read executes, any supplied `min`/`max` value parsed as a positive integer —
so every request whose `min` or `max` is non-integer (e.g. `"12.50"`), zero,
or negative is rejected with an input error before any store query. -/
theorem export_price_bounds_positive_int (sS eS mS xS : String) (f : GetFilter)
    (h : validateGet sS eS mS xS = .ok f) :
    (goTrimSpace mS ≠ "" →
      ∃ a, goAtoi (goTrimSpace mS) = some a ∧ 0 < a ∧ f.minPrice = some a) ∧
    (goTrimSpace xS ≠ "" →
      ∃ b, goAtoi (goTrimSpace xS) = some b ∧ 0 < b ∧ f.maxPrice = some b) := by
  obtain ⟨_, _, h3, h4, _⟩ := validateGet_ok_inv sS eS mS xS f h
  constructor
  · intro hne
    rcases parsePriceParam_ok _ _ _ h3 with ⟨h0, _⟩ | ⟨i, ho, ha, hp⟩
    · exact absurd h0 hne
    · exact ⟨i, ha, hp, ho⟩
  · intro hne
    rcases parsePriceParam_ok _ _ _ h4 with ⟨h0, _⟩ | ⟨i, ho, ha, hp⟩
    · exact absurd h0 hne
    · exact ⟨i, ha, hp, ho⟩

/-- Witness for C10: a request with `min=3`, `max=5` reaches the read with
both bounds parsed as positive integers. -/
theorem export_price_bounds_positive_int_witness :
    (∃ a, goAtoi (goTrimSpace "3") = some a ∧ 0 < a ∧
      (⟨none, none, some 3, some 5⟩ : GetFilter).minPrice = some a) ∧
    (∃ b, goAtoi (goTrimSpace "5") = some b ∧ 0 < b ∧
      (⟨none, none, some 3, some 5⟩ : GetFilter).maxPrice = some b) := by
  have hmain := export_price_bounds_positive_int "" "" "3" "5"
    ⟨none, none, some 3, some 5⟩ (by decide)
  exact ⟨hmain.1 (by decide), hmain.2 (by decide)⟩

/-! ## Price normalization (claim C7) -/

theorem isSpaceChar_commaToDot (c : Char) :
    isSpaceChar (commaToDot c) = isSpaceChar c := by
  unfold commaToDot
  by_cases hc : c = ','
  · subst hc; rfl
  · rw [if_neg hc]

theorem dropWhile_commaToDot (l : List Char) :
    (l.map commaToDot).dropWhile isSpaceChar =
      (l.dropWhile isSpaceChar).map commaToDot := by
  induction l with
  | nil => simp
  | cons c t ih =>
    simp only [List.map_cons, List.dropWhile_cons, isSpaceChar_commaToDot]
    by_cases hs : isSpaceChar c
    · simp [hs, ih]
    · simp [hs]

/-- Trimming commutes with the comma-to-period replacement. -/
theorem trim_replace_comm (s : String) :
    goTrimSpace (goReplaceCommaDot s) = goReplaceCommaDot (goTrimSpace s) := by
  unfold goTrimSpace goReplaceCommaDot
  refine congrArg String.mk ?_
  show (((s.data.map commaToDot).dropWhile isSpaceChar).reverse.dropWhile
      isSpaceChar).reverse =
    (((s.data.dropWhile isSpaceChar).reverse.dropWhile isSpaceChar).reverse).map commaToDot
  simp only [dropWhile_commaToDot, ← List.map_reverse]

theorem commaToDot_idem (c : Char) : commaToDot (commaToDot c) = commaToDot c := by
  by_cases hc : c = ','
  · subst hc; rfl
  · simp [commaToDot, hc]

theorem replaceCommaDot_idem (s : String) :
    goReplaceCommaDot (goReplaceCommaDot s) = goReplaceCommaDot s := by
  unfold goReplaceCommaDot
  refine congrArg String.mk ?_
  show (s.data.map commaToDot).map commaToDot = s.data.map commaToDot
  rw [List.map_map]
  induction s.data with
  | nil => rfl
  | cons c t ih => simp [ih, commaToDot_idem]

/-- Replacing every comma by a period never changes the parse result — the
comma form of a literal normalizes exactly as the period form does. -/
theorem parsePrice_comma (s : String) :
    parsePrice (goReplaceCommaDot s) = parsePrice s := by
  unfold parsePrice
  rw [trim_replace_comm, replaceCommaDot_idem]

/-- Every accepted price is positive and is the binary64
`math.Round(f*100)/100` image of the positive binary64 value parsed from the
trimmed, comma-normalized input. -/
theorem parsePrice_ok_spec (s : String) (q : ℚ) (h : parsePrice s = some q) :
    0 < q ∧ ∃ v, parseFloat64 (goReplaceCommaDot (goTrimSpace s)) = some v ∧ 0 < v ∧
      q = fdiv (goRoundF (fmul v 100)) 100 := by
  replace h : (match parseFloat64 (goReplaceCommaDot (goTrimSpace s)) with
    | none => none
    | some f =>
      if f ≤ 0 then none
      else if fdiv (goRoundF (fmul f 100)) 100 ≤ 0 then none
      else some (fdiv (goRoundF (fmul f 100)) 100)) = some q := h
  split at h
  next => exact absurd h (by simp)
  next v hv =>
    by_cases h1 : v ≤ 0
    · rw [if_pos h1] at h; exact absurd h (by simp)
    · rw [if_neg h1] at h
      by_cases h2 : fdiv (goRoundF (fmul v 100)) 100 ≤ 0
      · rw [if_pos h2] at h; exact absurd h (by simp)
      · rw [if_neg h2] at h
        have hq : q = fdiv (goRoundF (fmul v 100)) 100 := by
          injection h with h3; exact h3.symm
        subst hq
        exact ⟨not_le.mp h2, v, hv, not_le.mp h1, rfl⟩

set_option maxRecDepth 4000 in
/-- C7 (amended): price parsing runs on `float64` values: the input is
trimmed, commas become periods, `strconv.ParseFloat` reads the nearest
binary64 value `v`, a non-positive `v` is rejected, and the stored price is
`math.Round(v*100)/100` computed in binary64 arithmetic — a positive value
kept in major units.  A comma and a period normalize identically.  A value
whose scaled form rounds to zero hundredths is rejected ("0.004"), but this
rejection happens on the binary64 value, not the written decimal: the
literal "0.004999999999999999999" — below one half cent as written — parses
to the binary64 0.0050000000000000001…, is accepted, and is stored as the
binary64 nearest 0.01. -/
theorem parsePrice_normalization :
    (∀ s q, parsePrice s = some q → 0 < q ∧
      ∃ v, parseFloat64 (goReplaceCommaDot (goTrimSpace s)) = some v ∧ 0 < v ∧
        q = fdiv (goRoundF (fmul v 100)) 100) ∧
    (∀ s, parsePrice (goReplaceCommaDot s) = parsePrice s) ∧
    parsePrice "0.004" = none ∧
    parsePrice "0.004999999999999999999" =
      some (mkRat 5764607523034235 576460752303423488) :=
  ⟨parsePrice_ok_spec, parsePrice_comma, by decide, by decide⟩

set_option maxRecDepth 2000 in
/-- Witness for C7 (amended): `"12,50"` parses; its stored value `25/2` is
the binary64 `round(12.5*100)/100` image of the parsed binary64 value. -/
theorem parsePrice_normalization_witness :
    0 < (25 / 2 : ℚ) ∧
    ∃ v, parseFloat64 (goReplaceCommaDot (goTrimSpace "12,50")) = some v ∧ 0 < v ∧
      (25 / 2 : ℚ) = fdiv (goRoundF (fmul v 100)) 100 :=
  parsePrice_normalization.1 "12,50" (25 / 2) (by decide)

set_option maxRecDepth 2000 in
/-- Counterexample to C7 as stated: the stored price of `"12.50"` is `25/2`
(major units, two decimals) — not the integer minor-unit value
`round(12.50*100) = 1250`, and not an integer at all. -/
theorem parsePrice_minor_units_counterexample :
    parsePrice "12.50" = some (25 / 2) ∧
    ((25 : ℚ) / 2) ≠ ((goRound ((25 : ℚ) / 2 * 100) : ℤ) : ℚ) ∧
    ¬ ∃ n : ℤ, ((25 : ℚ) / 2) = (n : ℚ) := by
  refine ⟨by decide, by decide, ?_⟩
  rintro ⟨n, hn⟩
  have h2 : ((25 : ℚ) / 2).den = 2 := by decide
  rw [hn, Rat.den_intCast] at h2
  exact absurd h2 (by norm_num)

/-! ## Archive unwrapping (claim C8) -/

theorem findDataCSV_none (entries : List ArchiveEntry)
    (h : ∀ e ∈ entries, eqFold (pathBase e.name) "data.csv" = false) :
    findDataCSV entries = .error "data.csv not found in archive" := by
  induction entries with
  | nil => rfl
  | cons e rest ih =>
    unfold findDataCSV
    rw [h e (by simp)]
    simp only [Bool.false_eq_true, if_false]
    exact ih fun e' he' => h e' (List.mem_cons_of_mem _ he')

theorem findDataCSV_first (pre : List ArchiveEntry) (e : ArchiveEntry)
    (post : List ArchiveEntry)
    (hpre : ∀ e' ∈ pre, eqFold (pathBase e'.name) "data.csv" = false)
    (he : eqFold (pathBase e.name) "data.csv" = true) :
    findDataCSV (pre ++ e :: post) = .ok e.payload := by
  induction pre with
  | nil =>
    rw [List.nil_append]
    unfold findDataCSV
    rw [he]
    simp
  | cons x rest ih =>
    rw [List.cons_append]
    unfold findDataCSV
    rw [hpre x (by simp)]
    simp only [Bool.false_eq_true, if_false]
    exact ih fun e' he' => hpre e' (List.mem_cons_of_mem _ he')

/-- C8 (amended): archive unwrapping, for both zip and tar, selects the first
entry whose `path.Base` name — the base filename after stripping trailing
slashes — case-insensitively equals `data.csv`, and stops scanning there;
directory entries and zero-length entries are *not* skipped and can be
selected.  If no entry matches, it fails with the payload-not-found error;
if the bytes cannot be parsed as the declared kind, it fails with the
archive-format error. -/
theorem archive_unwrap_semantics :
    (openCSVFromZip none = .error "invalid zip archive") ∧
    (openCSVFromTar none = .error "invalid tar archive") ∧
    (∀ entries, openCSVFromZip (some entries) = findDataCSV entries ∧
      openCSVFromTar (some entries) = findDataCSV entries) ∧
    (∀ entries, (∀ e ∈ entries, eqFold (pathBase e.name) "data.csv" = false) →
      findDataCSV entries = .error "data.csv not found in archive") ∧
    (∀ pre e post, (∀ e' ∈ pre, eqFold (pathBase e'.name) "data.csv" = false) →
      eqFold (pathBase e.name) "data.csv" = true →
      findDataCSV (pre ++ e :: post) = .ok e.payload) :=
  ⟨rfl, rfl, fun _ => ⟨rfl, rfl⟩, findDataCSV_none, findDataCSV_first⟩

/-- Witness for C8 (amended): the first case-insensitive `data.csv` match is
selected past a non-matching entry and before later entries; an archive with
no match reports the payload-not-found error. -/
theorem archive_unwrap_semantics_witness :
    findDataCSV [⟨"x.txt", false, [1]⟩, ⟨"a/DATA.CSV", false, [7]⟩, ⟨"b", false, []⟩] =
      .ok [7] ∧
    findDataCSV [⟨"x.txt", false, [1]⟩] = .error "data.csv not found in archive" := by
  constructor
  · exact archive_unwrap_semantics.2.2.2.2 [⟨"x.txt", false, [1]⟩]
      ⟨"a/DATA.CSV", false, [7]⟩ [⟨"b", false, []⟩] (by decide) (by decide)
  · exact archive_unwrap_semantics.2.2.2.1 [⟨"x.txt", false, [1]⟩] (by decide)

/-- Counterexample to C8 as stated: a directory entry named `data.csv/` is
not skipped — `path.Base` strips the trailing slash, the entry matches, and
it is selected with its empty payload; likewise a zero-length plain entry is
selected rather than skipped. -/
theorem archive_unwrap_dir_counterexample :
    (⟨"data.csv/", true, []⟩ : ArchiveEntry).isDir = true ∧
    openCSVFromZip (some [⟨"data.csv/", true, []⟩]) = .ok [] ∧
    openCSVFromTar (some [⟨"data.csv/", true, []⟩]) = .ok [] ∧
    openCSVFromZip (some [⟨"data.csv", false, []⟩]) = .ok [] := by
  refine ⟨rfl, ?_, ?_, ?_⟩ <;> decide

/-! ## Upload body ceiling (claim C9) -/

/-- C9 (amended): the upload body is read through a 50 MiB limit reader that
never fails: a body within the ceiling is passed through whole, an oversized
body is silently truncated to its first 50 MiB and processed in that
truncated form rather than rejected, and there is no row-count ceiling — for
every row count the ingest scan processes all rows and (with sound
persistence) returns a response counting them all. -/
theorem upload_body_truncation :
    (∀ body : List Nat, body.length ≤ maxUploadBytes → readUploadBody body = body) ∧
    (∀ body : List Nat, maxUploadBytes < body.length →
      readUploadBody body = body.take maxUploadBytes ∧
      (readUploadBody body).length = maxUploadBytes ∧
      readUploadBody body ≠ body) ∧
    (∀ (σ : Store) (rows : List RawRow),
      ∃ resp, (ingestRows noFailOracle σ rows).2 = .ok resp ∧
        resp.totalCount = rows.length) := by
  refine ⟨?_, ?_, ?_⟩
  · intro body hle
    rw [readUploadBody]
    exact List.take_of_length_le hle
  · intro body hlt
    refine ⟨rfl, ?_, ?_⟩
    · rw [readUploadBody, List.length_take]
      omega
    · intro heq
      have hlen := congrArg List.length heq
      rw [readUploadBody, List.length_take] at hlen
      omega
  · intro σ rows
    obtain ⟨resp, hok⟩ := ingestRows_noFail_ok σ rows
    obtain ⟨_, _, _, h4, _, _, _, _⟩ := ingestRows_ok_spec _ _ _ _ hok
    exact ⟨resp, hok, h4⟩

/-- Witness for C9 (amended): a body one byte over the ceiling is truncated
to exactly the ceiling, not rejected. -/
theorem upload_body_truncation_witness :
    readUploadBody (List.replicate (maxUploadBytes + 1) 0) =
      (List.replicate (maxUploadBytes + 1) 0).take maxUploadBytes ∧
    (readUploadBody (List.replicate (maxUploadBytes + 1) 0)).length = maxUploadBytes ∧
    readUploadBody (List.replicate (maxUploadBytes + 1) 0) ≠
      List.replicate (maxUploadBytes + 1) 0 :=
  upload_body_truncation.2.1 (List.replicate (maxUploadBytes + 1) 0)
    (by rw [List.length_replicate]; omega)

/-- Counterexample to C9 as stated: an upload body exceeding the 50 MiB
ceiling by one byte does not fail fast with an error — the body read
succeeds and silently truncates it to a strict prefix, which is what gets
parsed and ingested. -/
theorem upload_oversized_truncated_counterexample :
    readUploadBody (List.replicate (maxUploadBytes + 1) 0) =
      List.replicate maxUploadBytes 0 ∧
    readUploadBody (List.replicate (maxUploadBytes + 1) 0) ≠
      List.replicate (maxUploadBytes + 1) 0 := by
  constructor
  · rw [readUploadBody, List.take_replicate]
    congr 1
  · intro heq
    have hlen := congrArg List.length heq
    rw [readUploadBody, List.length_take, List.length_replicate] at hlen
    omega

end PricesService
